import Mathlib

/-!
# Verification of the code-inference tool (`run.py`)

Shallow embedding of the repository's core (`run.py`): the feature
extractor (`extract_features_from_code`), the glossary matcher
(`fuzzy_match`, built on `difflib.get_close_matches`), and the rule
engine (`infer_requirements`).  Definitions follow the Python source;
Python exceptions are modelled with `Except`, Python floats arising as
ratios of small integers are modelled as exact rationals.
-/

set_option maxRecDepth 8000

namespace Run

/-! ## Python AST model

`run.py` consumes the tree produced by `ast.parse`.  We model the node
kinds that the extractor's `walk` can meet: statements (function
definitions, assignments, expression statements, ...), expressions
(constants, names, attribute access, subscripts, tuples, calls, binary
operations), the `arguments` child node of a `FunctionDef`, and the
`Module` root.  Context markers (`Load`/`Store`) carry no data and match
no branch of the extractor, so they are not modelled. -/

inductive PyExpr where
  /-- `ast.Constant` whose value is a `str`. -/
  | constStr (s : String)
  /-- `ast.Constant` whose value is not a `str` (number, `None`, ...). -/
  | constOther
  /-- `ast.Name`. -/
  | name (id : String)
  /-- `ast.Attribute`: attribute access `value.attr`. -/
  | attr (value : PyExpr) (attrName : String)
  /-- `ast.Subscript`: indexing `value[index]`. -/
  | subscript (value : PyExpr) (index : PyExpr)
  /-- `ast.Tuple`. -/
  | tupleE (elts : List PyExpr)
  /-- `ast.Call`. -/
  | call (func : PyExpr) (args : List PyExpr)
  /-- `ast.BinOp`. -/
  | binop (left right : PyExpr)

inductive PyStmt where
  /-- `ast.FunctionDef` (decorators/annotations omitted: the extractor
  reads only the name and the body's leading docstring). -/
  | functionDef (fname : String) (body : List PyStmt)
  /-- `ast.Assign` with its list of targets and its value. -/
  | assign (targets : List PyExpr) (value : PyExpr)
  /-- `ast.Expr`: an expression used as a statement. -/
  | exprStmt (value : PyExpr)
  /-- `ast.Return`. -/
  | ret (value : Option PyExpr)
  /-- `ast.If`. -/
  | ifStmt (cond : PyExpr) (body orelse : List PyStmt)
  /-- `ast.Pass`. -/
  | passStmt

/-- A node as enumerated by `ast.walk`: the module root, statements,
expressions, and the `arguments` node of a `FunctionDef`. -/
inductive PyNode where
  | module (body : List PyStmt)
  | stmt (s : PyStmt)
  | expr (e : PyExpr)
  | args

/-- `ast.iter_child_nodes`, in CPython field order. -/
def PyNode.children : PyNode → List PyNode
  | .module body => body.map .stmt
  | .stmt (.functionDef _ body) => .args :: body.map .stmt
  | .stmt (.assign targets value) => targets.map .expr ++ [.expr value]
  | .stmt (.exprStmt e) => [.expr e]
  | .stmt (.ret none) => []
  | .stmt (.ret (some e)) => [.expr e]
  | .stmt (.ifStmt c body orelse) => .expr c :: (body.map .stmt ++ orelse.map .stmt)
  | .stmt .passStmt => []
  | .expr (.constStr _) => []
  | .expr .constOther => []
  | .expr (.name _) => []
  | .expr (.attr v _) => [.expr v]
  | .expr (.subscript v i) => [.expr v, .expr i]
  | .expr (.tupleE elts) => elts.map .expr
  | .expr (.call f as) => .expr f :: as.map .expr
  | .expr (.binop l r) => [.expr l, .expr r]
  | .args => []

/-! Node counts, used to bound the number of steps of the breadth-first
walk (each step of `ast.walk` pops one node and pushes its children, so
the total node count of the queue decreases by one per step). -/

mutual
def exprSize : PyExpr → Nat
  | .constStr _ => 1
  | .constOther => 1
  | .name _ => 1
  | .attr v _ => 1 + exprSize v
  | .subscript v i => 1 + exprSize v + exprSize i
  | .tupleE elts => 1 + exprListSize elts
  | .call f as => 1 + exprSize f + exprListSize as
  | .binop l r => 1 + exprSize l + exprSize r

def exprListSize : List PyExpr → Nat
  | [] => 0
  | e :: es => exprSize e + exprListSize es
end

mutual
def stmtSize : PyStmt → Nat
  | .functionDef _ body => 2 + stmtListSize body
  | .assign targets value => 1 + exprListSize targets + exprSize value
  | .exprStmt e => 1 + exprSize e
  | .ret none => 1
  | .ret (some e) => 1 + exprSize e
  | .ifStmt c body orelse => 1 + exprSize c + stmtListSize body + stmtListSize orelse
  | .passStmt => 1

def stmtListSize : List PyStmt → Nat
  | [] => 0
  | s :: ss => stmtSize s + stmtListSize ss
end

def PyNode.size : PyNode → Nat
  | .module body => 1 + stmtListSize body
  | .stmt s => stmtSize s
  | .expr e => exprSize e
  | .args => 1

def nodeListSize (l : List PyNode) : Nat := (l.map PyNode.size).sum

/-! ## Python string helpers

`str.lower()` and `str.strip()`, modelled character-wise (`Char.toLower`
covers the ASCII range; the full Unicode case table is not modelled —
every string any claim touches is ASCII). -/

/-- `s.lower()`. -/
def pyLower (s : String) : String := ⟨s.data.map Char.toLower⟩

/-- `s.strip()`: drop whitespace from both ends. -/
def pyStrip (s : String) : String :=
  ⟨((s.data.dropWhile Char.isWhitespace).reverse.dropWhile Char.isWhitespace).reverse⟩

/-! ## Feature set and extraction -/

/-- One entry of `features["functions"]`: `{"name": ..., "doc": ...}`. -/
structure FuncInfo where
  name : String
  doc : String
deriving DecidableEq, Repr

/-- The `features` dictionary built by `extract_features_from_code`. -/
structure Features where
  functions : List FuncInfo
  /-- `features["variables"]` (named `vars` here: `variables` is a
  reserved word in Lean). -/
  vars : List String
  strings : List String
  comments : List String
deriving DecidableEq, Repr

def emptyFeatures : Features := ⟨[], [], [], []⟩

/-- Python exceptions that the modelled code can raise. -/
inductive PyErr where
  /-- `AttributeError`, e.g. from `node.value.value` when `node.value`
  is already a `str`. -/
  | attributeError
  /-- `KeyError` from a dictionary lookup. -/
  | keyError
deriving DecidableEq, Repr

/-- `ast.get_docstring(node)`: the leading statement's string constant,
if any (the `clean` whitespace normalisation is not modelled; no claim
depends on it). -/
def get_docstring (body : List PyStmt) : Option String :=
  match body with
  | .exprStmt (.constStr s) :: _ => some s
  | _ => none

/-- `doc.splitlines()[0] if doc else ""` (line 35 of `run.py`);
`splitlines` modelled as splitting on the newline character. -/
def docFirstLine (body : List PyStmt) : String :=
  match get_docstring body with
  | some d => if d = "" then "" else (d.splitOn "\n").headD ""
  | none => ""

/-- The simple-name test of lines 38–40: an `ast.Name` target yields its
identifier, any other target yields nothing. -/
def targetName : PyExpr → Option String
  | .name id => some id
  | _ => none

/-- The `if`/`elif` classification applied to each walked node
(lines 30–44 of `run.py`).  The last branch is the source's
`features["strings"].append(node.value.value)` where `node` is an
`ast.Constant` holding a `str`: `node.value` is that `str`, which has no
attribute `value`, so Python raises `AttributeError`. -/
def visit (f : Features) (n : PyNode) : Except PyErr Features :=
  match n with
  | .stmt (.functionDef nm body) =>
      .ok { f with functions := f.functions ++ [⟨nm, docFirstLine body⟩] }
  | .stmt (.assign targets _) =>
      .ok { f with vars := f.vars ++ targets.filterMap targetName }
  | .stmt (.exprStmt (.constStr s)) =>
      .ok { f with strings := f.strings ++ [s] }
  | .expr (.constStr _) => .error .attributeError
  | _ => .ok f

/-- The loop `for node in ast.walk(tree)` with the classification above.
`ast.walk` is breadth-first: pop a node, push its children at the back.
The fuel argument only serves structural termination; `extract` hands it
one more than the total node count, which bounds the number of steps. -/
def walkGo : Nat → List PyNode → Features → Except PyErr Features
  | 0, _, f => .ok f
  | _ + 1, [], f => .ok f
  | fuel + 1, n :: rest, f =>
      match visit f n with
      | .error e => .error e
      | .ok f' => walkGo fuel (rest ++ n.children) f'

/-! ## Source texts

The extractor consumes raw text through two standard-library
capabilities: `ast.parse` (which either yields a `Module` or raises
`SyntaxError`) and `tokenize.generate_tokens` (which yields a stream of
tokens and may raise `TokenError` mid-stream).  A source text is
modelled by those two outcomes: the parse result and the token list
produced before any tokenizer failure. -/

inductive Tok where
  /-- A `tokenize.COMMENT` token with its raw text. -/
  | comment (s : String)
  /-- Any other token kind. -/
  | other
deriving DecidableEq, Repr

structure PySource where
  /-- `none` when `ast.parse` raises `SyntaxError`; otherwise the body
  of the parsed `Module`. -/
  parse : Option (List PyStmt)
  /-- The tokens yielded by `tokenize.generate_tokens` before any
  `TokenError`. -/
  toks : List Tok

/-- Lines 22–28 of `run.py`: collect `COMMENT` tokens, stripped of
surrounding whitespace; a `TokenError` is swallowed, keeping the
comments gathered so far. -/
def commentsOf (toks : List Tok) : List String :=
  toks.filterMap fun t =>
    match t with
    | .comment s => some (pyStrip s)
    | .other => none

/-- `extract_features_from_code` (lines 9–46 of `run.py`): on
`SyntaxError` return the empty feature dictionary; otherwise collect
comments, then walk the tree breadth-first classifying every node. -/
def extract_features_from_code (src : PySource) : Except PyErr Features :=
  match src.parse with
  | none => .ok emptyFeatures
  | some body =>
      let root : PyNode := .module body
      walkGo (1 + nodeListSize [root]) [root]
        { emptyFeatures with comments := commentsOf src.toks }

/-! ## The `difflib` similarity machinery

`fuzzy_match` calls `difflib.get_close_matches(term.lower(),
glossary.keys(), n=1, cutoff=0.6)`.  We model the standard library's
`SequenceMatcher` on the character lists of the two strings, with no
junk: `get_close_matches` installs no `isjunk`, and the `autojunk`
heuristic only activates for second sequences of 200 or more characters,
which is not modelled here.  Ratios, which CPython computes in floating
point from small-integer counts, are modelled as exact rationals. -/

/-- Length of the common run of `a` and `b` starting at their heads,
capped by the window extents `n` and `m`.  This is the run length that
`find_longest_match`'s `j2len` dynamic programming attributes to a
matching block starting at the corresponding positions. -/
def runFrom : List Char → List Char → Nat → Nat → Nat
  | c :: a, d :: b, n + 1, m + 1 => if c = d then runFrom a b n m + 1 else 0
  | _, _, _, _ => 0

/-- `SequenceMatcher.find_longest_match(alo, ahi, blo, bhi)` with no
junk: the longest block `a[i:i+k] == b[j:j+k]` with
`alo <= i <= i+k <= ahi` and `blo <= j <= j+k <= bhi`; ties are broken
by the smallest `i`, then the smallest `j`, which is what scanning `i`
then `j` in increasing order with a strict-improvement update yields.
Returns `(alo, blo, 0)` when the windows share no character. -/
def findLongestMatch (a b : List Char) (alo ahi blo bhi : Nat) : Nat × Nat × Nat :=
  (List.range (ahi - alo)).foldl
    (fun best di =>
      (List.range (bhi - blo)).foldl
        (fun best dj =>
          let i := alo + di
          let j := blo + dj
          let k := runFrom (a.drop i) (b.drop j) (ahi - i) (bhi - j)
          if best.2.2 < k then (i, j, k) else best)
        best)
    (alo, blo, 0)

/-- Total size of the matching blocks that
`SequenceMatcher.get_matching_blocks` finds inside the given windows:
take the longest match, then recurse on the windows to its left and to
its right.  (The CPython version drives the same recursion with an
explicit queue; the set of blocks, hence their total size, is the
same.)  The fuel only serves structural termination: each recursive
call shrinks the `a`-window, so `ahi - alo` steps always suffice, and
`matchedTotal` supplies `a.length`. -/
def matchedGo (a b : List Char) : Nat → Nat → Nat → Nat → Nat → Nat
  | 0, _, _, _, _ => 0
  | fuel + 1, alo, ahi, blo, bhi =>
      let t := findLongestMatch a b alo ahi blo bhi
      let i := t.1
      let j := t.2.1
      let k := t.2.2
      if k = 0 then 0
      else (if alo < i ∧ blo < j then matchedGo a b fuel alo i blo j else 0)
        + k
        + (if i + k < ahi ∧ j + k < bhi then matchedGo a b fuel (i + k) ahi (j + k) bhi else 0)

/-- Sum of the sizes of all matching blocks of `a` and `b`
(`sum(triple[-1] for triple in self.get_matching_blocks())`). -/
def matchedTotal (a b : List Char) : Nat :=
  matchedGo a b a.length 0 a.length 0 b.length

/-- `difflib._calculate_ratio(matches, length)`:
`2.0 * matches / length` when `length` is nonzero, else `1.0`. -/
def calculateRatio (nmatches length : Nat) : ℚ :=
  if length = 0 then 1 else 2 * (nmatches : ℚ) / (length : ℚ)

/-- `SequenceMatcher(None, a, b).ratio()`. -/
def sratio (a b : String) : ℚ :=
  calculateRatio (matchedTotal a.data b.data) (a.length + b.length)

/-- `SequenceMatcher.quick_ratio()`: counts, for each character, the
smaller of its multiplicities in `a` and in `b` — the cardinality of the
multiset intersection of the two character multisets. -/
def quickRatio (a b : String) : ℚ :=
  calculateRatio (Multiset.card ((a.data : Multiset Char) ∩ (b.data : Multiset Char)))
    (a.length + b.length)

/-- `SequenceMatcher.real_quick_ratio()`: `min(la, lb)` matches. -/
def realQuickRatio (a b : String) : ℚ :=
  calculateRatio (min a.length b.length) (a.length + b.length)

/-- `difflib.get_close_matches(word, possibilities, n=1, cutoff)`: keep
each possibility whose three ratios against `word` all reach `cutoff`,
scored by `ratio`; `heapq.nlargest(1, result)` then picks the greatest
`(score, possibility)` pair in lexicographic order (score first, then
the string itself). -/
def scoredLt (p q : ℚ × String) : Prop := p.1 < q.1 ∨ (p.1 = q.1 ∧ p.2 < q.2)

instance (p q : ℚ × String) : Decidable (scoredLt p q) := by
  unfold scoredLt; infer_instance

def get_close_matches1 (word : String) (possibilities : List String) (cutoff : ℚ) :
    List String :=
  match possibilities.filterMap fun x =>
    if realQuickRatio x word ≥ cutoff ∧ quickRatio x word ≥ cutoff ∧ sratio x word ≥ cutoff
    then some (sratio x word, x)
    else none with
  | [] => []
  | p :: rest => [(rest.foldl (fun best q => if scoredLt best q then q else best) p).2]

/-! ## The glossary matcher and the rule engine -/

/-- Python dictionary read `glossary[key]`, on a dictionary modelled as
an association list with distinct keys; `none` models a `KeyError`. -/
def dictGet : List (String × String) → String → Option String
  | [], _ => none
  | (k, v) :: rest, key => if k = key then some v else dictGet rest key

/-- `fuzzy_match(term, glossary)` (lines 55–59 of `run.py`): the term is
lowercased, the glossary keys are passed to `get_close_matches` as they
are.  On a candidate, the source reads `glossary[matches[0]]`, whose
potential `KeyError` is modelled by the `dictGet` failure branch. -/
def fuzzy_match (term : String) (glossary : List (String × String)) :
    Except PyErr (Option (String × String)) :=
  match get_close_matches1 (pyLower term) (glossary.map Prod.fst) (3 / 5) with
  | m :: _ =>
      match dictGet glossary m with
      | some d => .ok (some (m, d))
      | none => .error .keyError
  | [] => .ok none

/-- One element of the `requirements` list built by
`infer_requirements`. -/
structure Requirement where
  text : String
  confidence : ℚ
  evidence : String
deriving DecidableEq, Repr

/-- `score_confidence(evidence_count) = round(min(1.0, 0.5 +
0.1 * evidence_count), 2)`.  Rounding is modelled with `round` on exact
rationals; `0.5 + 0.1 * n` already has at most two decimals, so no
half-to-even tie can arise for any count. -/
def score_confidence (evidence_count : Nat) : ℚ :=
  round (min 1 (1 / 2 + (evidence_count : ℚ) / 10) * 100) / 100

/-- Whether `needle` occurs as a contiguous substring of `hay`
(character-wise). -/
def strContains (hay needle : String) : Bool :=
  (List.range (hay.data.length + 1)).any fun i => needle.data.isPrefixOf (hay.data.drop i)

/-- `re.search(r"fee|penalt", name, re.IGNORECASE)`: the pattern is a
plain alternation of two literals, so it succeeds exactly when the
lowercased name contains `"fee"` or `"penalt"`. -/
def feeSearch (nm : String) : Bool :=
  strContains (pyLower nm) "fee" || strContains (pyLower nm) "penalt"

/-- The Fee/Penalty loop of `infer_requirements` (lines 68–74). -/
def funcFindings (functions : List FuncInfo) : List Requirement :=
  functions.filterMap fun fn =>
    if feeSearch fn.name
    then some ⟨"The system calculates a penalty or fee for a condition.",
      score_confidence 2, "Function: `" ++ fn.name ++ "`"⟩
    else none

/-- The Glossary Variable loop of `infer_requirements` (lines 76–83):
each variable is fuzzy-matched; an exception from `fuzzy_match` would
propagate. -/
def varFindings (vs : List String) (glossary : List (String × String)) :
    Except PyErr (List Requirement) :=
  match vs with
  | [] => .ok []
  | v :: rest =>
      match fuzzy_match v glossary with
      | .error e => .error e
      | .ok none => varFindings rest glossary
      | .ok (some (k, d)) =>
          match varFindings rest glossary with
          | .error e => .error e
          | .ok tail =>
              .ok (⟨"The system uses `" ++ k ++ "`: " ++ d ++ ".",
                score_confidence 2,
                "Variable: `" ++ v ++ "` matched glossary: `" ++ k ++ "`"⟩ :: tail)

/-- The Validation Comment loop of `infer_requirements` (lines 85–91):
`'validate' in comment.lower()`. -/
def commentFindings (comments : List String) : List Requirement :=
  comments.filterMap fun c =>
    if strContains (pyLower c) "validate"
    then some ⟨"The system includes validation logic.",
      score_confidence 1, "Comment: `" ++ c ++ "`"⟩
    else none

/-- `infer_requirements(features, glossary)` (lines 61–93): the three
rule loops append into one list, function findings first, then variable
findings, then comment findings. -/
def infer_requirements (features : Features) (glossary : List (String × String)) :
    Except PyErr (List Requirement) :=
  match varFindings features.vars glossary with
  | .error e => .error e
  | .ok vf => .ok (funcFindings features.functions ++ vf ++ commentFindings features.comments)

/-- Classification of a finding by the head of its `evidence` string:
the Fee/Penalty rule writes evidence "Function: `...`", the Glossary
Variable rule "Variable: `...` matched glossary: `...`", and the
Validation Comment rule "Comment: `...`".  Used only to state the
order claim. -/
def reqKind (r : Requirement) : Nat :=
  match r.evidence.data.head? with
  | some c => if c = 'F' then 0 else if c = 'V' then 1 else if c = 'C' then 2 else 3
  | none => 3

/-! ## Evaluation helpers for concrete ratio computations

The matched-count side of each ratio is a pure `Nat` computation that
the kernel can evaluate; these lemmas expose a ratio as
`calculateRatio m t` so that `norm_num` can finish the rational
arithmetic. -/

theorem sratio_eval (a b : String) (m t : Nat)
    (hm : matchedTotal a.data b.data = m) (ht : a.length + b.length = t) :
    sratio a b = calculateRatio m t := by
  unfold sratio; rw [hm, ht]

theorem quickRatio_eval (a b : String) (m t : Nat)
    (hm : Multiset.card ((a.data : Multiset Char) ∩ (b.data : Multiset Char)) = m)
    (ht : a.length + b.length = t) :
    quickRatio a b = calculateRatio m t := by
  unfold quickRatio; rw [hm, ht]

theorem realQuickRatio_eval (a b : String) (m t : Nat)
    (hm : min a.length b.length = m) (ht : a.length + b.length = t) :
    realQuickRatio a b = calculateRatio m t := by
  unfold realQuickRatio; rw [hm, ht]

theorem score_confidence_two : score_confidence 2 = 7 / 10 := by
  unfold score_confidence; rw [round_eq]; norm_num

theorem score_confidence_one : score_confidence 1 = 3 / 5 := by
  unfold score_confidence; rw [round_eq]; norm_num

/-- `get_close_matches` on the lowercased term `"id"` against the raw
key `"ID"`: no character matches case-sensitively, so the key is
filtered out. -/
theorem gcm_upper_ID : get_close_matches1 "id" ["ID"] (3 / 5) = [] := by
  have hq : quickRatio "ID" "id" = calculateRatio 0 4 := quickRatio_eval _ _ _ _ rfl rfl
  have hcond : ¬(realQuickRatio "ID" "id" ≥ 3 / 5 ∧ quickRatio "ID" "id" ≥ 3 / 5 ∧
      sratio "ID" "id" ≥ 3 / 5) := by
    rintro ⟨-, h, -⟩
    rw [hq] at h
    norm_num [calculateRatio] at h
  unfold get_close_matches1
  rw [List.filterMap_cons, if_neg hcond]
  rfl

theorem gcm_custmer : get_close_matches1 "custmer_id" ["customer_id"] (3 / 5)
    = ["customer_id"] := by
  have h1 : sratio "customer_id" "custmer_id" = calculateRatio 10 21 :=
    sratio_eval _ _ _ _ rfl rfl
  have h2 : quickRatio "customer_id" "custmer_id" = calculateRatio 10 21 :=
    quickRatio_eval _ _ _ _ rfl rfl
  have h3 : realQuickRatio "customer_id" "custmer_id" = calculateRatio 10 21 :=
    realQuickRatio_eval _ _ _ _ rfl rfl
  have hcond : realQuickRatio "customer_id" "custmer_id" ≥ 3 / 5 ∧
      quickRatio "customer_id" "custmer_id" ≥ 3 / 5 ∧
      sratio "customer_id" "custmer_id" ≥ 3 / 5 := by
    rw [h1, h2, h3]; norm_num [calculateRatio]
  unfold get_close_matches1
  rw [List.filterMap_cons, if_pos hcond]
  rfl

theorem gcm_xyz : get_close_matches1 "xyz" ["customer_id"] (3 / 5) = [] := by
  have hq : quickRatio "customer_id" "xyz" = calculateRatio 0 14 :=
    quickRatio_eval _ _ _ _ rfl rfl
  have hcond : ¬(realQuickRatio "customer_id" "xyz" ≥ 3 / 5 ∧
      quickRatio "customer_id" "xyz" ≥ 3 / 5 ∧ sratio "customer_id" "xyz" ≥ 3 / 5) := by
    rintro ⟨-, h, -⟩
    rw [hq] at h
    norm_num [calculateRatio] at h
  unfold get_close_matches1
  rw [List.filterMap_cons, if_neg hcond]
  rfl

theorem gcm_customer : get_close_matches1 "customer_id" ["customer_id"] (3 / 5)
    = ["customer_id"] := by
  have h1 : sratio "customer_id" "customer_id" = calculateRatio 11 22 :=
    sratio_eval _ _ _ _ rfl rfl
  have h2 : quickRatio "customer_id" "customer_id" = calculateRatio 11 22 :=
    quickRatio_eval _ _ _ _ rfl rfl
  have h3 : realQuickRatio "customer_id" "customer_id" = calculateRatio 11 22 :=
    realQuickRatio_eval _ _ _ _ rfl rfl
  have hcond : realQuickRatio "customer_id" "customer_id" ≥ 3 / 5 ∧
      quickRatio "customer_id" "customer_id" ≥ 3 / 5 ∧
      sratio "customer_id" "customer_id" ≥ 3 / 5 := by
    rw [h1, h2, h3]; norm_num [calculateRatio]
  unfold get_close_matches1
  rw [List.filterMap_cons, if_pos hcond]
  rfl

/-! ## Claims about the extractor -/

/-- **C1** (refuted, code bug).  The claim says
`extract_features_from_code` never lets an exception escape, even for
syntactically valid source containing string literals.  In fact, on the
source `bar = "test"` — the repository's own test input in
`test_feature_extraction` — the walk reaches the string `Constant` node
and the branch `features["strings"].append(node.value.value)` raises
`AttributeError` (`node.value` is already a `str`), which propagates out
of the function. -/
theorem C1_extract_raises_on_string_literal :
    extract_features_from_code
      ⟨some [.assign [.name "bar"] (.constStr "test")], [.other, .other]⟩
      = .error .attributeError := by
  rfl

/-- **C2** (refuted, code bug).  The claim says a docstring-position
string literal is appended to `strings` twice: once by the
statement-level branch and once by the generic string-constant branch.
The first append happens, but the generic branch then raises
`AttributeError` (`node.value.value` on a `str`), so extraction of a
module consisting of the standalone string literal `"doc"` errors out
instead of returning `strings = ["doc", "doc"]`. -/
theorem C2_standalone_string_crashes_instead_of_double_record :
    extract_features_from_code ⟨some [.exprStmt (.constStr "doc")], []⟩
      = .error .attributeError := by
  rfl

/-- **C5** (confirmed).  For every source text that is not
syntactically valid — `ast.parse` raises `SyntaxError`, whatever the
tokenizer yields — `extract_features_from_code` returns the feature set
with all four sequences empty and does not raise. -/
theorem C5_syntax_error_returns_empty_features (toks : List Tok) :
    extract_features_from_code ⟨none, toks⟩
      = .ok { functions := [], vars := [], strings := [], comments := [] } := by
  rfl

/-- Witness for C5 at a concrete token stream. -/
theorem C5_syntax_error_returns_empty_features_witness :
    extract_features_from_code ⟨none, [.comment "# validate", .other]⟩
      = .ok { functions := [], vars := [], strings := [], comments := [] } :=
  C5_syntax_error_returns_empty_features [.comment "# validate", .other]

/-- **C7** (refuted, code bug).  The claim says that for every
syntactically valid source, extraction returns with `variables` exactly
the simple-name assignment targets.  On the repository's own test
source (`# validate something` / `def foo(): pass` / `bar = "test"`)
the simple-name target `bar` is recorded, but extraction then raises
`AttributeError` at the string `Constant` node `"test"` instead of
returning, so no `variables` sequence is ever produced. -/
theorem C7_extract_raises_before_returning_variables :
    extract_features_from_code
      ⟨some [.functionDef "foo" [.passStmt],
             .assign [.name "bar"] (.constStr "test")],
       [.comment "# validate something", .other]⟩
      = .error .attributeError := by
  rfl

/-! ## Claims about the glossary matcher -/

/-- **C3, counterexample.**  The claim says `match` compares the
lowercased term against each *lowercased* glossary key, so a key
differing from the term only in letter case is matched.  In fact the
keys are passed to `get_close_matches` unchanged: querying the term
`"ID"` against a glossary whose key is exactly `"ID"` lowercases only
the query (to `"id"`), no character of which matches `"ID"`
case-sensitively, and `fuzzy_match` returns no match. -/
theorem C3_counterexample_uppercase_key_not_matched :
    fuzzy_match "ID" [("ID", "A unique ID")] = .ok none ∧
    fuzzy_match "ID" [("ID", "A unique ID")] ≠ .ok (some ("ID", "A unique ID")) := by
  have h : fuzzy_match "ID" [("ID", "A unique ID")] = .ok none := by
    unfold fuzzy_match
    have e1 : pyLower "ID" = "id" := rfl
    have e2 : ([("ID", "A unique ID")].map Prod.fst) = ["ID"] := rfl
    rw [e1, e2, gcm_upper_ID]
  exact ⟨h, by rw [h]; intro hc; cases hc⟩

/-- **C8** (confirmed).  `match("custmer_id", {"customer_id": d})`
returns the key `"customer_id"` with its description — the similarity of
`"custmer_id"` to `"customer_id"` is `20/21 ≥ 0.6` — and
`match("xyz", {"customer_id": d})` returns no match, for any
description `d`. -/
theorem C8_matcher_threshold (d : String) :
    fuzzy_match "custmer_id" [("customer_id", d)] = .ok (some ("customer_id", d)) ∧
    fuzzy_match "xyz" [("customer_id", d)] = .ok none := by
  constructor
  · unfold fuzzy_match
    have e1 : pyLower "custmer_id" = "custmer_id" := rfl
    have e2 : ([("customer_id", d)].map Prod.fst) = ["customer_id"] := rfl
    rw [e1, e2, gcm_custmer]
    simp [dictGet]
  · unfold fuzzy_match
    have e1 : pyLower "xyz" = "xyz" := rfl
    have e2 : ([("customer_id", d)].map Prod.fst) = ["customer_id"] := rfl
    rw [e1, e2, gcm_xyz]

/-- Witness for C8 at a concrete description. -/
theorem C8_matcher_threshold_witness :
    fuzzy_match "custmer_id" [("customer_id", "A unique ID for a customer")]
      = .ok (some ("customer_id", "A unique ID for a customer")) ∧
    fuzzy_match "xyz" [("customer_id", "A unique ID for a customer")] = .ok none :=
  C8_matcher_threshold "A unique ID for a customer"

/-! ## Claims about the rule engine -/

/-- **C4** (confirmed).  On the feature set with functions
`[{name: "charge_late_fee"}]`, variables `["customer_id"]`, comments
`["# validate input"]` and the glossary
`{"customer_id": "A unique ID for a customer"}`, `infer_requirements`
returns exactly three findings: the Fee/Penalty finding with confidence
`0.7`, the Glossary Variable finding referencing `customer_id` with
confidence `0.7`, and the Validation Comment finding with confidence
`0.6`, in that order. -/
theorem C4_rule_triggering :
    infer_requirements
      ⟨[⟨"charge_late_fee", ""⟩], ["customer_id"], [], ["# validate input"]⟩
      [("customer_id", "A unique ID for a customer")]
      = .ok
        [⟨"The system calculates a penalty or fee for a condition.", 7 / 10,
          "Function: `charge_late_fee`"⟩,
         ⟨"The system uses `customer_id`: A unique ID for a customer.", 7 / 10,
          "Variable: `customer_id` matched glossary: `customer_id`"⟩,
         ⟨"The system includes validation logic.", 3 / 5,
          "Comment: `# validate input`"⟩] := by
  have hfm : fuzzy_match "customer_id" [("customer_id", "A unique ID for a customer")]
      = .ok (some ("customer_id", "A unique ID for a customer")) := by
    unfold fuzzy_match
    have e1 : pyLower "customer_id" = "customer_id" := rfl
    have e2 : ([("customer_id", "A unique ID for a customer")].map Prod.fst)
        = ["customer_id"] := rfl
    rw [e1, e2, gcm_customer]
    rfl
  have hfee : feeSearch "charge_late_fee" = true := rfl
  have hval : strContains (pyLower "# validate input") "validate" = true := rfl
  unfold infer_requirements varFindings
  rw [hfm]
  simp only [funcFindings, commentFindings, List.filterMap_cons, List.filterMap_nil,
    hfee, hval, if_true, score_confidence_two, score_confidence_one]
  rfl

/-! ### Rule order and cardinality -/

/-- Every Fee/Penalty finding carries evidence starting with
`Function: `, so its kind is `0`. -/
theorem reqKind_funcFindings {fs : List FuncInfo} {r : Requirement}
    (h : r ∈ funcFindings fs) : reqKind r = 0 := by
  unfold funcFindings at h
  rw [List.mem_filterMap] at h
  obtain ⟨fn, -, hr⟩ := h
  split at hr
  · cases hr
    rfl
  · cases hr

/-- Every Validation Comment finding carries evidence starting with
`Comment: `, so its kind is `2`. -/
theorem reqKind_commentFindings {cs : List String} {r : Requirement}
    (h : r ∈ commentFindings cs) : reqKind r = 2 := by
  unfold commentFindings at h
  rw [List.mem_filterMap] at h
  obtain ⟨c, -, hr⟩ := h
  split at hr
  · cases hr
    rfl
  · cases hr

/-- Every Glossary Variable finding carries evidence starting with
`Variable: `, so its kind is `1`. -/
theorem reqKind_varFindings {g : List (String × String)} {vs : List String}
    {l : List Requirement} (h : varFindings vs g = .ok l) {r : Requirement}
    (hr : r ∈ l) : reqKind r = 1 := by
  induction vs generalizing l with
  | nil =>
      unfold varFindings at h
      injection h with h'
      subst h'
      cases hr
  | cons v rest ih =>
      unfold varFindings at h
      cases hfm : fuzzy_match v g with
      | error e => rw [hfm] at h; cases h
      | ok o =>
          rw [hfm] at h
          match o, h with
          | none, h => exact ih h hr
          | some (k, dsc), h =>
              cases hv : varFindings rest g with
              | error e => rw [hv] at h; cases h
              | ok tail =>
                  rw [hv] at h
                  injection h with h'
                  subst h'
                  cases hr with
                  | head => rfl
                  | tail _ hmem => exact ih hv hmem

theorem pairwise_kind_const {l : List Requirement} {c : Nat}
    (h : ∀ r ∈ l, reqKind r = c) :
    l.Pairwise (fun x y => reqKind x ≤ reqKind y) := by
  induction l with
  | nil => exact .nil
  | cons a l ih =>
      refine .cons (fun b hb => ?_) (ih fun r hr => h r (.tail _ hr))
      rw [h a (.head _), h b (.tail _ hb)]

/-- **C6** (confirmed).  For every feature set and glossary, the list of
findings returned by `infer_requirements` is ordered rule-by-rule: every
Fee/Penalty finding precedes every Glossary Variable finding, which
precedes every Validation Comment finding, whatever the order of the
features inside each input sequence. -/
theorem C6_findings_rule_ordered (f : Features) (g : List (String × String))
    (reqs : List Requirement) (h : infer_requirements f g = .ok reqs) :
    reqs.Pairwise (fun x y => reqKind x ≤ reqKind y) := by
  unfold infer_requirements at h
  cases hv : varFindings f.vars g with
  | error e => rw [hv] at h; cases h
  | ok vf =>
      rw [hv] at h
      injection h with h'
      subst h'
      rw [List.append_assoc, List.pairwise_append]
      refine ⟨pairwise_kind_const fun r hr => reqKind_funcFindings hr, ?_, ?_⟩
      · rw [List.pairwise_append]
        refine ⟨pairwise_kind_const fun r hr => reqKind_varFindings hv hr,
          pairwise_kind_const fun r hr => reqKind_commentFindings hr, ?_⟩
        intro a ha b hb
        rw [reqKind_varFindings hv ha, reqKind_commentFindings hb]
        omega
      · intro a ha b hb
        rw [reqKind_funcFindings ha]
        rcases List.mem_append.mp hb with hb | hb
        · rw [reqKind_varFindings hv hb]; omega
        · rw [reqKind_commentFindings hb]; omega

/-- Witness for C6: a run with one function, no variables and one
comment, whose findings are rule-ordered. -/
theorem C6_findings_rule_ordered_witness :
    (funcFindings [⟨"charge_late_fee", ""⟩] ++ [] ++
      commentFindings ["# validate input"]).Pairwise
        (fun x y => reqKind x ≤ reqKind y) :=
  C6_findings_rule_ordered
    ⟨[⟨"charge_late_fee", ""⟩], [], [], ["# validate input"]⟩ [] _ rfl

/-- The variable loop emits at most one finding per variable. -/
theorem varFindings_length_le {g : List (String × String)} {vs : List String}
    {l : List Requirement} (h : varFindings vs g = .ok l) :
    l.length ≤ vs.length := by
  induction vs generalizing l with
  | nil =>
      unfold varFindings at h
      injection h with h'
      subst h'
      exact Nat.le_refl 0
  | cons v rest ih =>
      unfold varFindings at h
      cases hfm : fuzzy_match v g with
      | error e => rw [hfm] at h; cases h
      | ok o =>
          rw [hfm] at h
          match o, h with
          | none, h => exact Nat.le_succ_of_le (ih h)
          | some (k, dsc), h =>
              cases hv : varFindings rest g with
              | error e => rw [hv] at h; cases h
              | ok tail =>
                  rw [hv] at h
                  injection h with h'
                  subst h'
                  simpa using Nat.succ_le_succ (ih hv)

/-- **C10** (confirmed).  For every feature set and glossary, the number
of findings returned by `infer_requirements` is at most
`|functions| + |variables| + |comments|`: each function, variable and
comment entry contributes at most one finding. -/
theorem C10_findings_bounded_by_features (f : Features) (g : List (String × String))
    (reqs : List Requirement) (h : infer_requirements f g = .ok reqs) :
    reqs.length ≤ f.functions.length + f.vars.length + f.comments.length := by
  unfold infer_requirements at h
  cases hv : varFindings f.vars g with
  | error e => rw [hv] at h; cases h
  | ok vf =>
      rw [hv] at h
      injection h with h'
      subst h'
      have h1 : (funcFindings f.functions).length ≤ f.functions.length :=
        List.length_filterMap_le _ _
      have h2 : vf.length ≤ f.vars.length := varFindings_length_le hv
      have h3 : (commentFindings f.comments).length ≤ f.comments.length :=
        List.length_filterMap_le _ _
      simp only [List.length_append]
      omega

/-- Witness for C10: the same one-function one-comment run yields at
most `1 + 0 + 1` findings. -/
theorem C10_findings_bounded_by_features_witness :
    (funcFindings [⟨"charge_late_fee", ""⟩] ++ [] ++
      commentFindings ["# validate input"]).length ≤ 1 + 0 + 1 :=
  C10_findings_bounded_by_features
    ⟨[⟨"charge_late_fee", ""⟩], [], [], ["# validate input"]⟩ [] _ rfl

/-! ## The selection made by `get_close_matches`

General lemmas: the best-scored fold picks an element of the scored
list and maximises the score; accepted candidates come from the list of
possibilities with their `ratio` as score. -/

theorem foldl_best_mem (p : ℚ × String) (rest : List (ℚ × String)) :
    rest.foldl (fun best q => if scoredLt best q then q else best) p ∈ p :: rest := by
  induction rest generalizing p with
  | nil => exact .head _
  | cons q rest ih =>
      simp only [List.foldl_cons]
      by_cases h : scoredLt p q
      · rw [if_pos h]
        rcases List.mem_cons.mp (ih q) with h1 | h1
        · rw [h1]; exact .tail _ (.head _)
        · exact .tail _ (.tail _ h1)
      · rw [if_neg h]
        rcases List.mem_cons.mp (ih p) with h1 | h1
        · rw [h1]; exact .head _
        · exact .tail _ (.tail _ h1)

theorem foldl_best_ge (p : ℚ × String) (rest : List (ℚ × String)) :
    ∀ x ∈ p :: rest,
      x.1 ≤ (rest.foldl (fun best q => if scoredLt best q then q else best) p).1 := by
  induction rest generalizing p with
  | nil =>
      intro x hx
      rcases List.mem_cons.mp hx with h1 | h1
      · rw [h1]; exact le_refl _
      · cases h1
  | cons q rest ih =>
      intro x hx
      simp only [List.foldl_cons]
      have hp : p.1 ≤ (if scoredLt p q then q else p).1 := by
        by_cases h : scoredLt p q
        · rw [if_pos h]
          rcases h with h | ⟨h, -⟩
          · exact le_of_lt h
          · exact le_of_eq h
        · rw [if_neg h]
      have hq : q.1 ≤ (if scoredLt p q then q else p).1 := by
        by_cases h : scoredLt p q
        · rw [if_pos h]
        · rw [if_neg h]
          unfold scoredLt at h
          push_neg at h
          exact h.1
      have htop : (if scoredLt p q then q else p).1
          ≤ (rest.foldl (fun best q => if scoredLt best q then q else best)
              (if scoredLt p q then q else p)).1 :=
        ih _ _ (.head _)
      rcases List.mem_cons.mp hx with h1 | h1
      · rw [h1]; exact le_trans hp htop
      · rcases List.mem_cons.mp h1 with h2 | h2
        · rw [h2]; exact le_trans hq htop
        · exact ih _ _ (.tail _ h2)

theorem scored_mem_shape {w : String} {poss : List String} {c : ℚ}
    {pr : ℚ × String}
    (h : pr ∈ poss.filterMap fun x =>
      if realQuickRatio x w ≥ c ∧ quickRatio x w ≥ c ∧ sratio x w ≥ c
      then some (sratio x w, x) else none) :
    pr.2 ∈ poss ∧ pr.1 = sratio pr.2 w ∧
      realQuickRatio pr.2 w ≥ c ∧ quickRatio pr.2 w ≥ c ∧ sratio pr.2 w ≥ c := by
  rw [List.mem_filterMap] at h
  obtain ⟨x, hx, hfx⟩ := h
  split at hfx
  · injection hfx with h'
    subst h'
    exact ⟨hx, rfl, by assumption⟩
  · cases hfx

theorem dictGet_of_mem_keys {g : List (String × String)} {k : String}
    (h : k ∈ g.map Prod.fst) : ∃ v, dictGet g k = some v := by
  induction g with
  | nil => cases h
  | cons kv rest ih =>
      by_cases hk : kv.1 = k
      · exact ⟨kv.2, by unfold dictGet; rw [if_pos hk]⟩
      · have : k ∈ rest.map Prod.fst := by
          rcases List.mem_cons.mp h with h1 | h1
          · exact absurd h1.symm hk
          · exact h1
        obtain ⟨v, hv⟩ := ih this
        exact ⟨v, by unfold dictGet; rw [if_neg hk]; exact hv⟩

theorem gcm_head_spec {w : String} {poss : List String} {c : ℚ} {m : String}
    {ms : List String} (h : get_close_matches1 w poss c = m :: ms) :
    m ∈ poss ∧ sratio m w ≥ c ∧
      ∀ x ∈ poss, realQuickRatio x w ≥ c ∧ quickRatio x w ≥ c ∧ sratio x w ≥ c →
        sratio x w ≤ sratio m w := by
  unfold get_close_matches1 at h
  set scored := poss.filterMap fun x =>
    if realQuickRatio x w ≥ c ∧ quickRatio x w ≥ c ∧ sratio x w ≥ c
    then some (sratio x w, x) else none with hs
  clear_value scored
  cases scored with
  | nil => cases h
  | cons p rest =>
      injection h with h1 h2
      have hmem := foldl_best_mem p rest
      rw [hs] at hmem
      obtain ⟨hm2, hm1, -, -, hmr⟩ := scored_mem_shape hmem
      subst h1
      refine ⟨hm2, hmr, ?_⟩
      intro x hx hacc
      have hxs : (sratio x w, x) ∈ p :: rest := by
        rw [hs, List.mem_filterMap]
        exact ⟨x, hx, by rw [if_pos hacc]⟩
      have := foldl_best_ge p rest _ hxs
      rw [hm1] at this
      exact this

theorem gcm_nil_spec {w : String} {poss : List String} {c : ℚ}
    (h : get_close_matches1 w poss c = []) :
    ∀ x ∈ poss, ¬(realQuickRatio x w ≥ c ∧ quickRatio x w ≥ c ∧ sratio x w ≥ c) := by
  unfold get_close_matches1 at h
  set scored := poss.filterMap fun x =>
    if realQuickRatio x w ≥ c ∧ quickRatio x w ≥ c ∧ sratio x w ≥ c
    then some (sratio x w, x) else none with hs
  clear_value scored
  cases scored with
  | cons p rest => cases h
  | nil =>
      intro x hx hacc
      have : (sratio x w, x) ∈ ([] : List (ℚ × String)) := by
        rw [hs, List.mem_filterMap]
        exact ⟨x, hx, by rw [if_pos hacc]⟩
      cases this

theorem gcm_nil_of_none {w : String} {poss : List String} {c : ℚ}
    (h : ∀ x ∈ poss, ¬(realQuickRatio x w ≥ c ∧ quickRatio x w ≥ c ∧ sratio x w ≥ c)) :
    get_close_matches1 w poss c = [] := by
  unfold get_close_matches1
  have : (poss.filterMap fun x =>
      if realQuickRatio x w ≥ c ∧ quickRatio x w ≥ c ∧ sratio x w ≥ c
      then some (sratio x w, x) else none) = [] := by
    rw [List.filterMap_eq_nil_iff]
    intro x hx
    rw [if_neg (h x hx)]
  rw [this]

/-- **C9** (confirmed).  For every term and glossary, `fuzzy_match`
returns either no match or a pair `(k, d)` where `k` is a key present
in the glossary and `d` is exactly the description the glossary maps
`k` to; in particular the lookup `glossary[matches[0]]` can never
raise `KeyError`, because every candidate returned by
`get_close_matches` is drawn from the glossary's own keys. -/
theorem C9_fuzzy_match_returns_glossary_entry (term : String) (g : List (String × String)) :
    fuzzy_match term g = .ok none ∨
    ∃ k d, fuzzy_match term g = .ok (some (k, d)) ∧
      k ∈ g.map Prod.fst ∧ dictGet g k = some d := by
  unfold fuzzy_match
  cases hm : get_close_matches1 (pyLower term) (g.map Prod.fst) (3 / 5) with
  | nil => exact Or.inl rfl
  | cons m ms =>
      have hmem : m ∈ g.map Prod.fst := (gcm_head_spec hm).1
      obtain ⟨d, hd⟩ := dictGet_of_mem_keys hmem
      exact Or.inr ⟨m, d, by simp only [hd], hmem, hd⟩


/-! ## Bounding the matched count

`quick_ratio` and `real_quick_ratio` are upper bounds of `ratio`: the
total size of the matching blocks is at most the cardinality of the
multiset intersection of the two character sequences, which is at most
the length of either sequence.  This is the chain of lemmas CPython's
documentation asserts informally (`real_quick_ratio() >= quick_ratio()
>= ratio()`), proved here for the model. -/

theorem runFrom_le_left : ∀ (x y : List Char) (n m : Nat), runFrom x y n m ≤ n
  | [], y, n, m => by simp [runFrom]
  | c :: a, [], n, m => by simp [runFrom]
  | c :: a, d :: b, 0, m => by simp [runFrom]
  | c :: a, d :: b, n + 1, 0 => by simp [runFrom]
  | c :: a, d :: b, n + 1, m + 1 => by
      rw [runFrom]
      by_cases h : c = d
      · rw [if_pos h]
        have := runFrom_le_left a b n m
        omega
      · rw [if_neg h]
        omega

theorem runFrom_le_right : ∀ (x y : List Char) (n m : Nat), runFrom x y n m ≤ m
  | [], y, n, m => by simp [runFrom]
  | c :: a, [], n, m => by simp [runFrom]
  | c :: a, d :: b, 0, m => by simp [runFrom]
  | c :: a, d :: b, n + 1, 0 => by simp [runFrom]
  | c :: a, d :: b, n + 1, m + 1 => by
      rw [runFrom]
      by_cases h : c = d
      · rw [if_pos h]
        have := runFrom_le_right a b n m
        omega
      · rw [if_neg h]
        omega

theorem runFrom_take : ∀ (x y : List Char) (n m : Nat),
    x.take (runFrom x y n m) = y.take (runFrom x y n m)
  | [], y, n, m => by simp [runFrom]
  | c :: a, [], n, m => by simp [runFrom]
  | c :: a, d :: b, 0, m => by simp [runFrom]
  | c :: a, d :: b, n + 1, 0 => by simp [runFrom]
  | c :: a, d :: b, n + 1, m + 1 => by
      rw [runFrom]
      by_cases h : c = d
      · rw [if_pos h]
        simp only [List.take_succ_cons, h, runFrom_take a b n m]
      · rw [if_neg h]
        simp

theorem foldl_inv {α β : Type} {P : β → Prop} (l : List α) (f : β → α → β) (init : β)
    (h0 : P init) (hstep : ∀ acc, P acc → ∀ x ∈ l, P (f acc x)) : P (l.foldl f init) := by
  induction l generalizing init with
  | nil => exact h0
  | cons x l ih =>
      exact ih _ (hstep _ h0 _ (.head _))
        fun acc hacc y hy => hstep acc hacc y (.tail _ hy)

theorem findLongestMatch_spec (a b : List Char) (alo ahi blo bhi : Nat)
    (ha : alo ≤ ahi) (hb : blo ≤ bhi) :
    alo ≤ (findLongestMatch a b alo ahi blo bhi).1 ∧
    blo ≤ (findLongestMatch a b alo ahi blo bhi).2.1 ∧
    (findLongestMatch a b alo ahi blo bhi).1 + (findLongestMatch a b alo ahi blo bhi).2.2 ≤ ahi ∧
    (findLongestMatch a b alo ahi blo bhi).2.1 + (findLongestMatch a b alo ahi blo bhi).2.2 ≤ bhi ∧
    (a.drop (findLongestMatch a b alo ahi blo bhi).1).take
        (findLongestMatch a b alo ahi blo bhi).2.2
      = (b.drop (findLongestMatch a b alo ahi blo bhi).2.1).take
        (findLongestMatch a b alo ahi blo bhi).2.2 := by
  unfold findLongestMatch
  apply foldl_inv (P := fun t : Nat × Nat × Nat =>
    alo ≤ t.1 ∧ blo ≤ t.2.1 ∧ t.1 + t.2.2 ≤ ahi ∧ t.2.1 + t.2.2 ≤ bhi ∧
      (a.drop t.1).take t.2.2 = (b.drop t.2.1).take t.2.2)
  · exact ⟨le_refl _, le_refl _, by simpa using ha, by simpa using hb, by simp⟩
  · intro acc hacc di hdi
    apply foldl_inv (P := fun t : Nat × Nat × Nat =>
      alo ≤ t.1 ∧ blo ≤ t.2.1 ∧ t.1 + t.2.2 ≤ ahi ∧ t.2.1 + t.2.2 ≤ bhi ∧
        (a.drop t.1).take t.2.2 = (b.drop t.2.1).take t.2.2)
    · exact hacc
    · intro best hbest dj hdj
      by_cases h : best.2.2 < runFrom (a.drop (alo + di)) (b.drop (blo + dj))
          (ahi - (alo + di)) (bhi - (blo + dj))
      · rw [if_pos h]
        have hdi' : di < ahi - alo := List.mem_range.mp hdi
        have hdj' : dj < bhi - blo := List.mem_range.mp hdj
        have hkA := runFrom_le_left (a.drop (alo + di)) (b.drop (blo + dj))
          (ahi - (alo + di)) (bhi - (blo + dj))
        have hkB : runFrom (a.drop (alo + di)) (b.drop (blo + dj))
            (ahi - (alo + di)) (bhi - (blo + dj)) ≤ bhi - (blo + dj) :=
          runFrom_le_right _ _ _ _
        refine ⟨Nat.le_add_right _ _, Nat.le_add_right _ _, by dsimp only; omega,
          by dsimp only; omega, ?_⟩
        exact runFrom_take _ _ _ _
      · rw [if_neg h]
        exact hbest


theorem take_drop_split (l : List Char) (lo mid hi : Nat) (h1 : lo ≤ mid) (h2 : mid ≤ hi) :
    (l.drop lo).take (hi - lo)
      = (l.drop lo).take (mid - lo) ++ (l.drop mid).take (hi - mid) := by
  have h3 : hi - lo = (mid - lo) + (hi - mid) := by omega
  have h4 : (l.drop lo).drop (mid - lo) = l.drop mid := by
    rw [List.drop_drop]
    congr 1
    omega
  rw [h3, List.take_add, h4]

theorem card_inter_superadd (s1 s2 t1 t2 : Multiset Char) :
    Multiset.card (s1 ∩ t1) + Multiset.card (s2 ∩ t2)
      ≤ Multiset.card ((s1 + s2) ∩ (t1 + t2)) := by
  have hle : (s1 ∩ t1) + (s2 ∩ t2) ≤ (s1 + s2) ∩ (t1 + t2) := by
    rw [Multiset.le_iff_count]
    intro c
    simp only [Multiset.count_add, Multiset.count_inter]
    exact le_min
      (Nat.add_le_add (Nat.min_le_left _ _) (Nat.min_le_left _ _))
      (Nat.add_le_add (Nat.min_le_right _ _) (Nat.min_le_right _ _))
  simpa [Multiset.card_add] using Multiset.card_le_card hle

theorem card_inter_self_coe (l : List Char) :
    Multiset.card ((l : Multiset Char) ∩ (l : Multiset Char)) = l.length := by
  have : (l : Multiset Char) ∩ (l : Multiset Char) = (l : Multiset Char) :=
    Multiset.ext.mpr fun c => by rw [Multiset.count_inter]; omega
  rw [this, Multiset.coe_card]

theorem matchedGo_succ (a b : List Char) (fuel alo ahi blo bhi : Nat) :
    matchedGo a b (fuel + 1) alo ahi blo bhi =
      if (findLongestMatch a b alo ahi blo bhi).2.2 = 0 then 0
      else
        (if alo < (findLongestMatch a b alo ahi blo bhi).1 ∧
            blo < (findLongestMatch a b alo ahi blo bhi).2.1
         then matchedGo a b fuel alo (findLongestMatch a b alo ahi blo bhi).1
            blo (findLongestMatch a b alo ahi blo bhi).2.1
         else 0)
        + (findLongestMatch a b alo ahi blo bhi).2.2
        + (if (findLongestMatch a b alo ahi blo bhi).1
              + (findLongestMatch a b alo ahi blo bhi).2.2 < ahi ∧
            (findLongestMatch a b alo ahi blo bhi).2.1
              + (findLongestMatch a b alo ahi blo bhi).2.2 < bhi
           then matchedGo a b fuel
              ((findLongestMatch a b alo ahi blo bhi).1
                + (findLongestMatch a b alo ahi blo bhi).2.2) ahi
              ((findLongestMatch a b alo ahi blo bhi).2.1
                + (findLongestMatch a b alo ahi blo bhi).2.2) bhi
           else 0) := rfl

theorem matchedGo_le (a b : List Char) : ∀ (fuel alo ahi blo bhi : Nat),
    alo ≤ ahi → ahi ≤ a.length → blo ≤ bhi → bhi ≤ b.length →
    matchedGo a b fuel alo ahi blo bhi ≤ Multiset.card
      ((((a.drop alo).take (ahi - alo) : List Char) : Multiset Char)
        ∩ (((b.drop blo).take (bhi - blo) : List Char) : Multiset Char)) := by
  intro fuel
  induction fuel with
  | zero =>
      intro alo ahi blo bhi _ _ _ _
      exact Nat.zero_le _
  | succ fuel ih =>
      intro alo ahi blo bhi ha hla hb hlb
      rw [matchedGo_succ]
      obtain ⟨h1, h2, h3, h4, heq⟩ := findLongestMatch_spec a b alo ahi blo bhi ha hb
      by_cases hk : (findLongestMatch a b alo ahi blo bhi).2.2 = 0
      · rw [if_pos hk]
        exact Nat.zero_le _
      · rw [if_neg hk]
        set t := findLongestMatch a b alo ahi blo bhi with ht
        have hk1 : 1 ≤ t.2.2 := Nat.one_le_iff_ne_zero.mpr hk
        -- window decompositions
        have hsA : (a.drop alo).take (ahi - alo)
            = (a.drop alo).take (t.1 - alo)
              ++ ((a.drop t.1).take t.2.2
                ++ (a.drop (t.1 + t.2.2)).take (ahi - (t.1 + t.2.2))) := by
          rw [take_drop_split a alo t.1 ahi h1 (by omega),
            take_drop_split a t.1 (t.1 + t.2.2) ahi (Nat.le_add_right _ _) h3,
            Nat.add_sub_cancel_left]
        have hsB : (b.drop blo).take (bhi - blo)
            = (b.drop blo).take (t.2.1 - blo)
              ++ ((b.drop t.2.1).take t.2.2
                ++ (b.drop (t.2.1 + t.2.2)).take (bhi - (t.2.1 + t.2.2))) := by
          rw [take_drop_split b blo t.2.1 bhi h2 (by omega),
            take_drop_split b t.2.1 (t.2.1 + t.2.2) bhi (Nat.le_add_right _ _) h4,
            Nat.add_sub_cancel_left]
        -- bound for the left recursion
        have hleft : (if alo < t.1 ∧ blo < t.2.1
              then matchedGo a b fuel alo t.1 blo t.2.1 else 0)
            ≤ Multiset.card
              ((((a.drop alo).take (t.1 - alo) : List Char) : Multiset Char)
                ∩ (((b.drop blo).take (t.2.1 - blo) : List Char) : Multiset Char)) := by
          by_cases hg : alo < t.1 ∧ blo < t.2.1
          · rw [if_pos hg]
            exact ih alo t.1 blo t.2.1 (le_of_lt hg.1) (by omega) (le_of_lt hg.2) (by omega)
          · rw [if_neg hg]
            exact Nat.zero_le _
        -- bound for the matched block itself
        have hmid : t.2.2 ≤ Multiset.card
            ((((a.drop t.1).take t.2.2 : List Char) : Multiset Char)
              ∩ (((b.drop t.2.1).take t.2.2 : List Char) : Multiset Char)) := by
          rw [← heq, card_inter_self_coe, List.length_take]
          have : t.2.2 ≤ (a.drop t.1).length := by
            rw [List.length_drop]
            omega
          omega
        -- bound for the right recursion
        have hright : (if t.1 + t.2.2 < ahi ∧ t.2.1 + t.2.2 < bhi
              then matchedGo a b fuel (t.1 + t.2.2) ahi (t.2.1 + t.2.2) bhi else 0)
            ≤ Multiset.card
              ((((a.drop (t.1 + t.2.2)).take (ahi - (t.1 + t.2.2)) : List Char) : Multiset Char)
                ∩ (((b.drop (t.2.1 + t.2.2)).take (bhi - (t.2.1 + t.2.2)) : List Char) :
                  Multiset Char)) := by
          by_cases hg : t.1 + t.2.2 < ahi ∧ t.2.1 + t.2.2 < bhi
          · rw [if_pos hg]
            exact ih _ _ _ _ (le_of_lt hg.1) hla (le_of_lt hg.2) hlb
          · rw [if_neg hg]
            exact Nat.zero_le _
        rw [hsA, hsB]
        rw [← Multiset.coe_add, ← Multiset.coe_add, ← Multiset.coe_add, ← Multiset.coe_add]
        calc (if alo < t.1 ∧ blo < t.2.1 then matchedGo a b fuel alo t.1 blo t.2.1 else 0)
              + t.2.2
              + (if t.1 + t.2.2 < ahi ∧ t.2.1 + t.2.2 < bhi
                 then matchedGo a b fuel (t.1 + t.2.2) ahi (t.2.1 + t.2.2) bhi else 0)
            ≤ Multiset.card
                ((((a.drop alo).take (t.1 - alo) : List Char) : Multiset Char)
                  ∩ (((b.drop blo).take (t.2.1 - blo) : List Char) : Multiset Char))
              + (Multiset.card
                  ((((a.drop t.1).take t.2.2 : List Char) : Multiset Char)
                    ∩ (((b.drop t.2.1).take t.2.2 : List Char) : Multiset Char))
                + Multiset.card
                  ((((a.drop (t.1 + t.2.2)).take (ahi - (t.1 + t.2.2)) : List Char) :
                      Multiset Char)
                    ∩ (((b.drop (t.2.1 + t.2.2)).take (bhi - (t.2.1 + t.2.2)) : List Char) :
                      Multiset Char))) := by
              have := Nat.add_le_add (Nat.add_le_add hleft hmid) hright
              omega
          _ ≤ Multiset.card
                ((((a.drop alo).take (t.1 - alo) : List Char) : Multiset Char)
                  ∩ (((b.drop blo).take (t.2.1 - blo) : List Char) : Multiset Char))
              + Multiset.card
                (((((a.drop t.1).take t.2.2 : List Char) : Multiset Char)
                    + (((a.drop (t.1 + t.2.2)).take (ahi - (t.1 + t.2.2)) : List Char) :
                        Multiset Char))
                  ∩ ((((b.drop t.2.1).take t.2.2 : List Char) : Multiset Char)
                    + (((b.drop (t.2.1 + t.2.2)).take (bhi - (t.2.1 + t.2.2)) : List Char) :
                        Multiset Char))) := by
              have := card_inter_superadd
                ((a.drop t.1).take t.2.2 : List Char)
                ((a.drop (t.1 + t.2.2)).take (ahi - (t.1 + t.2.2)) : List Char)
                ((b.drop t.2.1).take t.2.2 : List Char)
                ((b.drop (t.2.1 + t.2.2)).take (bhi - (t.2.1 + t.2.2)) : List Char)
              omega
          _ ≤ _ := card_inter_superadd _ _ _ _

theorem matchedTotal_le_inter (a b : List Char) :
    matchedTotal a b ≤ Multiset.card ((a : Multiset Char) ∩ (b : Multiset Char)) := by
  have := matchedGo_le a b a.length 0 a.length 0 b.length
    (Nat.zero_le _) (le_refl _) (Nat.zero_le _) (le_refl _)
  simpa [matchedTotal, List.drop_zero, Nat.sub_zero, List.take_length] using this


theorem sratio_le_quickRatio (a b : String) : sratio a b ≤ quickRatio a b := by
  unfold sratio quickRatio calculateRatio
  by_cases h : a.length + b.length = 0
  · rw [if_pos h, if_pos h]
  · rw [if_neg h, if_neg h]
    have hpos : (0 : ℚ) < ((a.length + b.length : Nat) : ℚ) := by
      exact_mod_cast Nat.pos_of_ne_zero h
    rw [div_le_div_iff_of_pos_right hpos]
    have hnat := matchedTotal_le_inter a.data b.data
    have : 2 * matchedTotal a.data b.data
        ≤ 2 * Multiset.card ((a.data : Multiset Char) ∩ (b.data : Multiset Char)) :=
      Nat.mul_le_mul_left 2 hnat
    exact_mod_cast this

theorem quickRatio_le_realQuickRatio (a b : String) : quickRatio a b ≤ realQuickRatio a b := by
  unfold quickRatio realQuickRatio calculateRatio
  by_cases h : a.length + b.length = 0
  · rw [if_pos h, if_pos h]
  · rw [if_neg h, if_neg h]
    have hpos : (0 : ℚ) < ((a.length + b.length : Nat) : ℚ) := by
      exact_mod_cast Nat.pos_of_ne_zero h
    rw [div_le_div_iff_of_pos_right hpos]
    have h1 : Multiset.card ((a.data : Multiset Char) ∩ (b.data : Multiset Char))
        ≤ a.length := by
      simpa [Multiset.coe_card] using
        Multiset.card_le_card (Multiset.inter_le_left (a.data : Multiset Char) (b.data))
    have h2 : Multiset.card ((a.data : Multiset Char) ∩ (b.data : Multiset Char))
        ≤ b.length := by
      simpa [Multiset.coe_card] using
        Multiset.card_le_card (Multiset.inter_le_right (a.data : Multiset Char) (b.data))
    have : 2 * Multiset.card ((a.data : Multiset Char) ∩ (b.data : Multiset Char))
        ≤ 2 * min a.length b.length :=
      Nat.mul_le_mul_left 2 (le_min h1 h2)
    exact_mod_cast this

theorem acceptance_of_sratio {x w : String} {c : ℚ} (h : sratio x w ≥ c) :
    realQuickRatio x w ≥ c ∧ quickRatio x w ≥ c ∧ sratio x w ≥ c :=
  ⟨le_trans (le_trans h (sratio_le_quickRatio x w)) (quickRatio_le_realQuickRatio x w),
    le_trans h (sratio_le_quickRatio x w), h⟩

/-- **C3, amended** (proved).  `fuzzy_match` compares the *lowercased*
term against each glossary key *as stored* (the keys are not
lowercased).  Whenever it returns a key, that key belongs to the
glossary, carries its stored description, its similarity to the
lowercased term is at least `0.6`, and no glossary key with similarity
at least `0.6` scores strictly higher; it returns no match exactly when
no key reaches similarity `0.6` against the lowercased term. -/
theorem C3_fuzzy_match_lowered_term_against_raw_keys (term : String) (g : List (String × String)) :
    (∀ k d, fuzzy_match term g = .ok (some (k, d)) →
      k ∈ g.map Prod.fst ∧ dictGet g k = some d ∧
      sratio k (pyLower term) ≥ 3 / 5 ∧
      ∀ k' ∈ g.map Prod.fst, sratio k' (pyLower term) ≥ 3 / 5 →
        sratio k' (pyLower term) ≤ sratio k (pyLower term)) ∧
    (fuzzy_match term g = .ok none ↔
      ∀ k' ∈ g.map Prod.fst, sratio k' (pyLower term) < 3 / 5) := by
  constructor
  · intro k d hk
    unfold fuzzy_match at hk
    cases hm : get_close_matches1 (pyLower term) (g.map Prod.fst) (3 / 5) with
    | nil =>
        rw [hm] at hk
        injection hk with h'
        cases h'
    | cons m ms =>
        rw [hm] at hk
        dsimp only at hk
        cases hd : dictGet g m with
        | none => rw [hd] at hk; cases hk
        | some d0 =>
            rw [hd] at hk
            injection hk with h'
            injection h' with h''
            injection h'' with e1 e2
            subst e1
            subst e2
            obtain ⟨hmem, hge, hmax⟩ := gcm_head_spec hm
            exact ⟨hmem, hd, hge, fun k' hk' hge' => hmax k' hk' (acceptance_of_sratio hge')⟩
  · constructor
    · intro hnone k' hk'
      unfold fuzzy_match at hnone
      cases hm : get_close_matches1 (pyLower term) (g.map Prod.fst) (3 / 5) with
      | cons m ms =>
          rw [hm] at hnone
          dsimp only at hnone
          cases hd : dictGet g m with
          | none => rw [hd] at hnone; cases hnone
          | some d0 =>
              rw [hd] at hnone
              injection hnone with h'
              cases h'
      | nil =>
          have hno := gcm_nil_spec hm k' hk'
          by_contra hge
          push_neg at hge
          exact hno (acceptance_of_sratio hge)
    · intro hall
      unfold fuzzy_match
      have hnil : get_close_matches1 (pyLower term) (g.map Prod.fst) (3 / 5) = [] := by
        apply gcm_nil_of_none
        intro x hx hacc3
        exact absurd hacc3.2.2 (not_le.mpr (hall x hx))
      rw [hnil]


/-- Witness for C9 at a concrete term and glossary. -/
theorem C9_fuzzy_match_returns_glossary_entry_witness :
    fuzzy_match "custmer_id" [("customer_id", "A unique ID")] = .ok none ∨
    ∃ k d, fuzzy_match "custmer_id" [("customer_id", "A unique ID")] = .ok (some (k, d)) ∧
      k ∈ [("customer_id", "A unique ID")].map Prod.fst ∧
      dictGet [("customer_id", "A unique ID")] k = some d :=
  C9_fuzzy_match_returns_glossary_entry "custmer_id" [("customer_id", "A unique ID")]

/-- Witness for the amended C3: instantiated at the misspelt term
`"custmer_id"` and the glossary key `"customer_id"`, whose similarity
reaches the threshold. -/
theorem C3_fuzzy_match_lowered_term_against_raw_keys_witness :
    sratio "customer_id" (pyLower "custmer_id") ≥ 3 / 5 := by
  have h : fuzzy_match "custmer_id" [("customer_id", "A")] = .ok (some ("customer_id", "A")) := by
    unfold fuzzy_match
    have e1 : pyLower "custmer_id" = "custmer_id" := rfl
    have e2 : ([("customer_id", "A")].map Prod.fst) = ["customer_id"] := rfl
    rw [e1, e2, gcm_custmer]
    rfl
  exact ((C3_fuzzy_match_lowered_term_against_raw_keys "custmer_id"
    [("customer_id", "A")]).1 "customer_id" "A" h).2.2.1

end Run
